import Mathlib

/-!
Verification of the classical quantum-dot simulator
(`qtt/simulation/classicaldotsystem.py`).

The Python code is shallowly embedded: numpy float arrays become `List ℚ`,
integer occupation arrays become `List ℕ`, the numpy int arrays obtained by
assigning float results into an int-typed array become `List ℤ` (the
assignment truncates toward zero, i.e. takes the floor on the non-negative
values that occur here), and the dot-system object becomes a structure whose
fields mirror the Python attributes.
-/

namespace Qtt

/-- Dot product of two rational vectors, mirroring `np.dot` on 1-D arrays
(the callers below only apply it to vectors of equal length). -/
def dotp (a b : List ℚ) : ℚ := (List.zipWith (fun x y => x * y) a b).sum

/-- Matrix-vector product, mirroring `np.dot(matrix, vector)`:
one dot product per row. -/
def matvec (A : List (List ℚ)) (x : List ℚ) : List ℚ := A.map (fun row => dotp row x)

/-- Embedding of `ncr(n, r)`:
`r = min(r, n - r); if r == 0: return 1;`
`numer = reduce(mul, range(n, n - r, -1)); denom = reduce(mul, range(1, r + 1));`
`return numer // denom` (Python `//` on non-negative integers is `Nat` division;
`range(n, n - r, -1)` lists `n - i` for `i = 0, ..., r - 1`, and
`range(1, r + 1)` lists `i + 1` for `i = 0, ..., r - 1`). -/
def ncr (n r : ℕ) : ℕ :=
  let r2 := min r (n - r)
  if r2 = 0 then 1
  else (((List.range r2).map (fun i => n - i)).prod) /
       (((List.range r2).map (fun i => i + 1)).prod)

/-- Embedding of `itertools.product(range(m + 1), repeat=n)`: all length-`n`
tuples over `{0, ..., m}`, the leftmost coordinate varying slowest. -/
def natProduct (m : ℕ) : ℕ → List (List ℕ)
  | 0 => [[]]
  | n + 1 => (List.range (m + 1)).flatMap (fun x => (natProduct m n).map (fun t => x :: t))

/-- Embedding of the basis enumeration in `ClassicalDotSystem.makebasis`:
`sorted(itertools.product(range(maxelectrons + 1), repeat=ndots), key=sum)`.
Python `sorted` is a stable sort, as is `List.mergeSort`. -/
def makebasis (ndots maxelectrons : ℕ) : List (List ℕ) :=
  (natProduct maxelectrons ndots).mergeSort (fun a b => a.sum ≤ b.sum)

/-- Embedding of one row of the addition-energy basis:
`add_basis[i] = 1 / 2 * basis[i] * (basis[i] + 1)` computed in float arithmetic
and assigned into the int array `add_basis` (copied from `basis`), hence
truncated toward zero; the values are non-negative so this is the floor. -/
def add_basis_row (occ : List ℕ) : List ℤ :=
  occ.map (fun b : ℕ => ⌊(1 / 2 : ℚ) * (b : ℚ) * ((b : ℚ) + 1)⌋)

/-- Embedding of `itertools.combinations(l, 2)`: all pairs of elements of `l`
taken at distinct positions, first position strictly before the second, in
lexicographic position order. -/
def pairs {α : Type} : List α → List (α × α)
  | [] => []
  | x :: xs => (xs.map (fun y => (x, y))) ++ pairs xs

/-- Embedding of one row of the coulomb term cache:
`coulomb_energy[i] = [np.dot(*v) for v in itertools.combinations(basis[i], 2)]`
(`np.dot` on two scalars is their product). -/
def coulomb_row (occ : List ℕ) : List ℕ :=
  (pairs occ).map (fun p => p.1 * p.2)

/-- The canonical enumeration of the index pairs `(a, b)` with `a < b < n`
in lexicographic order `(0,1), (0,2), ..., (0,n-1), (1,2), ...`: first the
pairs with first component `0`, then the pairs among the remaining indices,
shifted by one. -/
def pairsIdx : ℕ → List (ℕ × ℕ)
  | 0 => []
  | n + 1 =>
    (List.range n).map (fun k => (0, k + 1)) ++
      (pairsIdx n).map (fun p => (p.1 + 1, p.2 + 1))

/-- The dot-system object: dimensions, physical parameters and the cached
basis data, mirroring the attributes of the Python class. -/
structure ClassicalDotSystem where
  ndots : ℕ
  ngates : ℕ
  maxelectrons : ℕ
  mu0 : List ℚ
  Eadd : List ℚ
  W : List ℚ
  alpha : List (List ℚ)
  basis : List (List ℕ)
  nbasis : List ℕ
  Nt : ℕ
  add_basis : List (List ℤ)
  coulomb_energy : List (List ℕ)

namespace ClassicalDotSystem

/-- Embedding of the method `makebasis`: builds the sorted basis and the
per-state caches (`nbasis`, `Nt`, `add_basis`, `coulomb_energy`) and stores
them on the object; all other attributes are untouched. -/
def makebasisStep (s : ClassicalDotSystem) : ClassicalDotSystem :=
  let b := Qtt.makebasis s.ndots s.maxelectrons
  { s with
    basis := b
    nbasis := b.map List.sum
    Nt := b.length
    add_basis := b.map add_basis_row
    coulomb_energy := b.map coulomb_row }

/-- The state reached after the method `makebasis` has run: each cache field
holds exactly what `makebasisStep` stores for the current dimensions. -/
def basisBuilt (s : ClassicalDotSystem) : Prop :=
  s.basis = Qtt.makebasis s.ndots s.maxelectrons ∧
  s.nbasis = s.basis.map List.sum ∧
  s.Nt = s.basis.length ∧
  s.add_basis = s.basis.map add_basis_row ∧
  s.coulomb_energy = s.basis.map coulomb_row

/-- Embedding of `calculate_energies`:
`tmp1 = -(mu0 + np.dot(alpha, gatevalues))`, then for each basis index `i`
the energy is `np.dot(tmp1, basis[i]) + np.dot(coulomb_energy[i], W)
+ np.dot(add_basis[i], Eadd)`. -/
def calculate_energies (s : ClassicalDotSystem) (gatevalues : List ℚ) : List ℚ :=
  let tmp1 := (List.zipWith (fun m a => m + a) s.mu0 (matvec s.alpha gatevalues)).map
    (fun x => -x)
  (List.range s.Nt).map (fun i =>
    dotp tmp1 ((s.basis.getD i []).map (fun b : ℕ => (b : ℚ))) +
    dotp ((s.coulomb_energy.getD i []).map (fun c : ℕ => (c : ℚ))) s.W +
    dotp ((s.add_basis.getD i []).map (fun a : ℤ => (a : ℚ))) s.Eadd)

end ClassicalDotSystem

/-- Embedding of `np.argmin` on a 1-D array: the least index at which the
minimum value is attained (`np.argmin` documents that the first occurrence
of the minimum is returned); `0` on the empty list. -/
def argmin : List ℚ → ℕ
  | [] => 0
  | x :: xs => if xs.all (fun y => x ≤ y) then 0 else argmin xs + 1

namespace ClassicalDotSystem

/-- Embedding of `calculate_ground_state`:
`basis[np.argmin(calculate_energies(gatevalues))]`. -/
def calculate_ground_state (s : ClassicalDotSystem) (gatevalues : List ℚ) : List ℕ :=
  s.basis.getD (argmin (s.calculate_energies gatevalues)) []

end ClassicalDotSystem

/-- The gate-voltage vector at grid cell `(i, j)`: `paramvalues2D[:, i, j]`. -/
def gridColumn (grid : List (List (List ℚ))) (i j : ℕ) : List ℚ :=
  grid.map (fun plane => (plane.getD i []).getD j 0)

/-- Row-major reshaping of a flat list into `nx` rows of `ny` entries each,
mirroring `np.reshape(result, (npointsx, npointsy, ndots))` applied to the
flat list of per-cell results. -/
def reshapeRows {α : Type} (ny : ℕ) : ℕ → List α → List (List α)
  | 0, _ => []
  | nx + 1, l => l.take ny :: reshapeRows ny nx (l.drop ny)

namespace ClassicalDotSystem

/-- The sequential branch of `simulate_honeycomb`: the nested loop
`for i in range(npointsx): for j in range(npointsy):
hcgs[i, j] = calculate_ground_state(paramvalues2D[:, i, j])`. -/
def sweepSeq (s : ClassicalDotSystem) (grid : List (List (List ℚ))) (nx ny : ℕ) :
    List (List (List ℕ)) :=
  (List.range nx).map (fun i =>
    (List.range ny).map (fun j => s.calculate_ground_state (gridColumn grid i j)))

/-- The parallel branch of `simulate_honeycomb`: build the flat cell list
`param_iter = [paramvalues2D[:, i, j] for i in range(npointsx) for j in
range(npointsy)]`, apply `calculate_ground_state` to every cell in order
(`pool.map` preserves the order of its input), and reshape the flat result
list back into the grid row-major. -/
def sweepPar (s : ClassicalDotSystem) (grid : List (List (List ℚ))) (nx ny : ℕ) :
    List (List (List ℕ)) :=
  let param_iter := (List.range nx).flatMap (fun i =>
    (List.range ny).map (fun j => gridColumn grid i j))
  reshapeRows ny nx (param_iter.map (fun g => s.calculate_ground_state g))

/-- Embedding of `simulate_honeycomb` up to the assembly of `hcgs`:
`nparams, npointsx, npointsy = np.shape(paramvalues2D)`; if
`nparams != ngates` the method prints a message and returns without
computing anything (`none` here); otherwise the grid of ground states is
assembled by the parallel branch when `multiprocess` holds and by the
sequential loop otherwise. -/
def simulate_honeycomb (s : ClassicalDotSystem) (grid : List (List (List ℚ)))
    (multiprocess : Bool) : Option (List (List (List ℕ))) :=
  let nparams := grid.length
  let nx := (grid.getD 0 []).length
  let ny := ((grid.getD 0 []).getD 0 []).length
  if nparams ≠ s.ngates then none
  else some (if multiprocess then s.sweepPar grid nx ny else s.sweepSeq grid nx ny)

/-- State-passing form of `calculate_energies`: the method body only reads
the object's attributes while filling the local array `energies`, so the
loop threads the object state unchanged; the returned pair is the local
result together with the post-state of the object. -/
def calculate_energies_run (s : ClassicalDotSystem) (gatevalues : List ℚ) :
    List ℚ × ClassicalDotSystem :=
  (List.range s.Nt).foldl
    (fun acc i =>
      let st := acc.2
      let tmp1 := (List.zipWith (fun m a => m + a) st.mu0 (matvec st.alpha gatevalues)).map
        (fun x => -x)
      (acc.1 ++ [dotp tmp1 ((st.basis.getD i []).map (fun b : ℕ => (b : ℚ))) +
        dotp ((st.coulomb_energy.getD i []).map (fun c : ℕ => (c : ℚ))) st.W +
        dotp ((st.add_basis.getD i []).map (fun a : ℤ => (a : ℚ))) st.Eadd], st))
    ([], s)

/-- State-passing form of `calculate_ground_state`: the method reads the
energies and the basis and assigns no attribute. -/
def calculate_ground_state_run (s : ClassicalDotSystem) (gatevalues : List ℚ) :
    List ℕ × ClassicalDotSystem :=
  let e := calculate_energies_run s gatevalues
  ((e.2.basis).getD (argmin e.1) [], e.2)

end ClassicalDotSystem

/-- The `DoubleDot` preset: `ndots = ngates = 2`, `maxelectrons = 3`, basis
built by `makebasis`, then `mu0 = [120, 100]`, `Eadd = [54, 52.8]`,
`W = [6]`, `alpha = [[1, 0.25], [0.25, 1]]`. -/
def DoubleDot : ClassicalDotSystem :=
  ClassicalDotSystem.makebasisStep
    { ndots := 2
      ngates := 2
      maxelectrons := 3
      mu0 := [120, 100]
      Eadd := [54, 528 / 10]
      W := [6]
      alpha := [[1, 1 / 4], [1 / 4, 1]]
      basis := []
      nbasis := []
      Nt := 0
      add_basis := []
      coulomb_energy := [] }

/-! ### Helper lemmas about the basis enumeration -/

theorem natProduct_length (m n : ℕ) : (natProduct m n).length = (m + 1) ^ n := by
  induction n with
  | zero => simp [natProduct]
  | succ n ih =>
    simp only [natProduct, List.length_flatMap, Function.comp_def, List.length_map, ih,
      List.map_const', List.length_range, List.sum_replicate, smul_eq_mul]
    ring

theorem mem_natProduct {m n : ℕ} {occ : List ℕ} :
    occ ∈ natProduct m n ↔ occ.length = n ∧ ∀ x ∈ occ, x ≤ m := by
  induction n generalizing occ with
  | zero =>
    simp only [natProduct, List.mem_singleton]
    constructor
    · rintro rfl; simp
    · rintro ⟨h, -⟩; exact List.eq_nil_of_length_eq_zero h
  | succ n ih =>
    simp only [natProduct, List.mem_flatMap, List.mem_map, List.mem_range]
    constructor
    · rintro ⟨x, hx, t, ht, rfl⟩
      obtain ⟨hlen, hbd⟩ := ih.mp ht
      refine ⟨by simp [hlen], ?_⟩
      intro y hy
      rcases List.mem_cons.mp hy with rfl | hy
      · omega
      · exact hbd y hy
    · rintro ⟨hlen, hbd⟩
      cases occ with
      | nil => simp at hlen
      | cons x t =>
        refine ⟨x, ?_, t, ih.mpr ⟨by simpa using hlen, ?_⟩, rfl⟩
        · have := hbd x (by simp); omega
        · intro y hy; exact hbd y (List.mem_cons_of_mem _ hy)

theorem makebasis_perm (n m : ℕ) : (makebasis n m).Perm (natProduct m n) :=
  List.mergeSort_perm _ _

theorem makebasis_length (n m : ℕ) : (makebasis n m).length = (m + 1) ^ n := by
  rw [makebasis, List.length_mergeSort, natProduct_length]

theorem mem_makebasis {n m : ℕ} {occ : List ℕ} :
    occ ∈ makebasis n m ↔ occ.length = n ∧ ∀ x ∈ occ, x ≤ m := by
  rw [makebasis, List.mem_mergeSort, mem_natProduct]

theorem makebasis_sorted (n m : ℕ) :
    (makebasis n m).Pairwise (fun a b => a.sum ≤ b.sum) := by
  have h := @List.sorted_mergeSort (List ℕ)
    (fun a b => decide (a.sum ≤ b.sum))
    (fun a b c => by simp only [decide_eq_true_eq]; omega)
    (fun a b => by simp only [Bool.or_eq_true, decide_eq_true_eq]; omega)
    (natProduct m n)
  exact h.imp (by simp only [decide_eq_true_eq]; exact fun h => h)

theorem makebasis_filter_sum (n m s : ℕ) :
    (makebasis n m).filter (fun v => v.sum = s) =
      (natProduct m n).filter (fun v => v.sum = s) := by
  have hsub : ((natProduct m n).filter (fun v => v.sum = s)).Sublist (makebasis n m) := by
    apply List.sublist_mergeSort
      (fun a b c => by simp only [decide_eq_true_eq]; omega)
      (fun a b => by simp only [Bool.or_eq_true, decide_eq_true_eq]; omega)
    · apply List.pairwise_of_forall_mem_list
      intro a ha b hb
      have ha2 := (List.mem_filter.mp ha).2
      have hb2 := (List.mem_filter.mp hb).2
      simp only [decide_eq_true_eq] at ha2 hb2 ⊢
      omega
    · exact List.filter_sublist _
  have hsub2 : ((natProduct m n).filter (fun v => v.sum = s)).Sublist
      ((makebasis n m).filter (fun v => v.sum = s)) := by
    have := hsub.filter (fun v => decide (v.sum = s))
    rw [List.filter_filter] at this
    simpa only [Bool.and_self] using this
  have hperm : ((makebasis n m).filter (fun v => v.sum = s)).Perm
      ((natProduct m n).filter (fun v => v.sum = s)) :=
    (makebasis_perm n m).filter _
  exact (hsub2.eq_of_length hperm.length_eq.symm).symm

theorem sum_eq_zero_replicate {n : ℕ} {occ : List ℕ}
    (hlen : occ.length = n) (hsum : occ.sum = 0) : occ = List.replicate n 0 := by
  rw [List.eq_replicate_iff]
  exact ⟨hlen, List.sum_eq_zero_iff.mp hsum⟩

theorem makebasis_head (n m : ℕ) : (makebasis n m).getD 0 [] = List.replicate n 0 := by
  have hne : makebasis n m ≠ [] := by
    intro h
    have hlen := makebasis_length n m
    rw [h] at hlen
    simp only [List.length_nil] at hlen
    have hpos : 0 < (m + 1) ^ n := pow_pos (Nat.succ_pos m) n
    omega
  obtain ⟨x, xs, hx⟩ := List.exists_cons_of_ne_nil hne
  have hmem : List.replicate n 0 ∈ makebasis n m := by
    rw [mem_makebasis]
    constructor
    · exact List.length_replicate n 0
    · intro y hy
      have := List.eq_of_mem_replicate hy
      omega
  have hxmem : x ∈ makebasis n m := by rw [hx]; exact List.mem_cons_self x xs
  obtain ⟨hxlen, -⟩ := mem_makebasis.mp hxmem
  rw [hx] at hmem ⊢
  simp only [List.getD_cons_zero]
  rcases List.mem_cons.mp hmem with h | h
  · exact h.symm
  · have hs := makebasis_sorted n m
    rw [hx] at hs
    have hle := (List.pairwise_cons.mp hs).1 _ h
    rw [List.sum_replicate, smul_eq_mul, mul_zero] at hle
    exact sum_eq_zero_replicate hxlen (Nat.le_zero.mp hle)

/-! ### Helper lemmas about `argmin` -/

theorem argmin_lt_length {l : List ℚ} (h : l ≠ []) : argmin l < l.length := by
  induction l with
  | nil => exact absurd rfl h
  | cons x xs ih =>
    by_cases hall : xs.all (fun y => decide (x ≤ y)) = true
    · simp [argmin, hall]
    · have hxs : xs ≠ [] := by
        intro hn; rw [hn] at hall; simp [List.all_nil] at hall
      simp only [argmin, hall, if_false, List.length_cons]
      exact Nat.succ_lt_succ (ih hxs)

theorem argmin_le {l : List ℚ} :
    ∀ j, j < l.length → l.getD (argmin l) 0 ≤ l.getD j 0 := by
  induction l with
  | nil => intro j hj; simp at hj
  | cons x xs ih =>
    intro j hj
    by_cases hall : xs.all (fun y => decide (x ≤ y)) = true
    · simp only [argmin, hall, if_true, List.getD_cons_zero]
      cases j with
      | zero => simp
      | succ j =>
        simp only [List.getD_cons_succ]
        simp only [List.all_eq_true, decide_eq_true_eq] at hall
        have hjlen : j < xs.length := by simpa using hj
        rw [List.getD_eq_getElem _ _ hjlen]
        exact hall _ (List.getElem_mem hjlen)
    · have hxs : xs ≠ [] := by
        intro hn; rw [hn] at hall; simp [List.all_nil] at hall
      simp only [argmin, hall, if_false, List.getD_cons_succ]
      simp only [List.all_eq_true, decide_eq_true_eq, not_forall] at hall
      obtain ⟨y, hy, hyx⟩ := hall
      obtain ⟨k, hk, rfl⟩ := List.getElem_of_mem hy
      cases j with
      | zero =>
        simp only [List.getD_cons_zero]
        have h1 : xs.getD (argmin xs) 0 ≤ xs.getD k 0 := ih k hk
        rw [List.getD_eq_getElem _ _ hk] at h1
        have h2 : ¬ x ≤ xs[k] := hyx
        exact le_of_lt (lt_of_le_of_lt h1 (lt_of_not_le h2))
      | succ j =>
        simp only [List.getD_cons_succ]
        exact ih j (by simpa using hj)

theorem argmin_first {l : List ℚ} :
    ∀ j, j < argmin l → l.getD j 0 > l.getD (argmin l) 0 := by
  induction l with
  | nil => intro j hj; simp [argmin] at hj
  | cons x xs ih =>
    intro j hj
    by_cases hall : xs.all (fun y => decide (x ≤ y)) = true
    · rw [argmin, if_pos hall] at hj
      omega
    · have harg : argmin (x :: xs) = argmin xs + 1 := by
        rw [argmin, if_neg hall]
      rw [harg] at hj
      rw [harg, List.getD_cons_succ]
      simp only [List.all_eq_true, decide_eq_true_eq, not_forall] at hall
      obtain ⟨y, hy, hyx⟩ := hall
      obtain ⟨k, hk, rfl⟩ := List.getElem_of_mem hy
      cases j with
      | zero =>
        simp only [List.getD_cons_zero]
        have h1 : xs.getD (argmin xs) 0 ≤ xs.getD k 0 := argmin_le k hk
        rw [List.getD_eq_getElem _ _ hk] at h1
        exact lt_of_le_of_lt h1 (lt_of_not_le hyx)
      | succ j =>
        rw [List.getD_cons_succ]
        exact ih j (by omega)

/-! ### Helper lemmas about dot products -/

theorem dotp_nil_left (b : List ℚ) : dotp [] b = 0 := by simp [dotp]

theorem dotp_replicate_zero_right (a : List ℚ) (k : ℕ) :
    dotp a (List.replicate k 0) = 0 := by
  induction a generalizing k with
  | nil => simp [dotp]
  | cons x xs ih =>
    cases k with
    | zero => simp [dotp]
    | succ k =>
      simp only [List.replicate_succ, dotp, List.zipWith_cons_cons, List.sum_cons, mul_zero,
        zero_add]
      exact ih k

theorem dotp_left_all_zero {a : List ℚ} (b : List ℚ) (h : ∀ x ∈ a, x = 0) :
    dotp a b = 0 := by
  induction a generalizing b with
  | nil => simp [dotp]
  | cons x xs ih =>
    cases b with
    | nil => simp [dotp]
    | cons y ys =>
      simp only [dotp, List.zipWith_cons_cons, List.sum_cons]
      rw [h x (by simp), zero_mul, zero_add]
      exact ih ys (fun z hz => h z (List.mem_cons_of_mem _ hz))

/-! ### Helper lemmas about pair enumeration -/

theorem map_getD_range {α : Type} (l : List α) (d : α) :
    (List.range l.length).map (fun k => l.getD k d) = l := by
  induction l with
  | nil => simp
  | cons x xs ih =>
    rw [List.length_cons, List.range_succ_eq_map, List.map_cons, List.map_map]
    simp only [List.getD_cons_zero, Function.comp_def, Nat.succ_eq_add_one,
      List.getD_cons_succ]
    rw [ih]

theorem pairs_eq_pairsIdx {α : Type} (l : List α) (d : α) :
    pairs l = (pairsIdx l.length).map (fun p => (l.getD p.1 d, l.getD p.2 d)) := by
  induction l with
  | nil => simp [pairs, pairsIdx]
  | cons x xs ih =>
    rw [List.length_cons]
    show pairs (x :: xs) = (pairsIdx (xs.length + 1)).map _
    rw [pairsIdx, List.map_append, List.map_map, List.map_map]
    have h1 : (List.range xs.length).map
        ((fun p : ℕ × ℕ => ((x :: xs).getD p.1 d, (x :: xs).getD p.2 d)) ∘
          (fun k => (0, k + 1))) = xs.map (fun y => (x, y)) := by
      have := congrArg (List.map (fun y => (x, y))) (map_getD_range xs d)
      rw [List.map_map] at this
      rw [← this]
      apply List.map_congr_left
      intro k _
      simp [Function.comp_def]
    have h2 : (pairsIdx xs.length).map
        ((fun p : ℕ × ℕ => ((x :: xs).getD p.1 d, (x :: xs).getD p.2 d)) ∘
          (fun p : ℕ × ℕ => (p.1 + 1, p.2 + 1))) =
        (pairsIdx xs.length).map (fun p => (xs.getD p.1 d, xs.getD p.2 d)) := by
      apply List.map_congr_left
      intro p _
      simp [Function.comp_def]
    rw [h1, h2, ← ih]
    rfl

theorem pairsIdx_length (n : ℕ) : (pairsIdx n).length = n.choose 2 := by
  induction n with
  | zero => simp [pairsIdx]
  | succ n ih =>
    rw [pairsIdx, List.length_append, List.length_map, List.length_map, List.length_range, ih,
      Nat.choose_succ_succ, Nat.choose_one_right]

theorem mem_pairsIdx {n : ℕ} {p : ℕ × ℕ} :
    p ∈ pairsIdx n ↔ p.1 < p.2 ∧ p.2 < n := by
  induction n generalizing p with
  | zero => simp [pairsIdx]
  | succ n ih =>
    rw [pairsIdx, List.mem_append, List.mem_map, List.mem_map]
    constructor
    · rintro (⟨k, hk, rfl⟩ | ⟨q, hq, rfl⟩)
      · simp only [List.mem_range] at hk
        dsimp only
        omega
      · have h := ih.mp hq
        dsimp only
        omega
    · rintro ⟨h1, h2⟩
      obtain ⟨a, b⟩ := p
      dsimp only at h1 h2
      cases a with
      | zero =>
        left
        refine ⟨b - 1, ?_, ?_⟩
        · rw [List.mem_range]; omega
        · have hb : b - 1 + 1 = b := by omega
          rw [hb]
      | succ a =>
        right
        refine ⟨(a, b - 1), ih.mpr ⟨by dsimp only; omega, by dsimp only; omega⟩, ?_⟩
        dsimp only
        have hb : b - 1 + 1 = b := by omega
        rw [hb]

/-- Strict lexicographic order on index pairs. -/
def lexLt (p q : ℕ × ℕ) : Prop := p.1 < q.1 ∨ (p.1 = q.1 ∧ p.2 < q.2)

theorem pairsIdx_pairwise_lex (n : ℕ) : (pairsIdx n).Pairwise lexLt := by
  induction n with
  | zero => simp [pairsIdx]
  | succ n ih =>
    rw [pairsIdx, List.pairwise_append]
    refine ⟨?_, ?_, ?_⟩
    · exact (List.pairwise_lt_range n).map _
        (fun a b hab => Or.inr ⟨rfl, by omega⟩)
    · exact ih.map _ (fun a b hab => by
        rcases hab with h | ⟨h1, h2⟩
        · exact Or.inl (by omega)
        · exact Or.inr ⟨by omega, by omega⟩)
    · intro a ha b hb
      rw [List.mem_map] at ha hb
      obtain ⟨k, -, rfl⟩ := ha
      obtain ⟨q, -, rfl⟩ := hb
      exact Or.inl (by dsimp only; omega)

/-! ### Helper lemmas about the addition-energy rows -/

theorem floor_half_mul_succ (b : ℕ) :
    (⌊(1 / 2 : ℚ) * (b : ℚ) * ((b : ℚ) + 1)⌋ : ℚ) = (1 / 2 : ℚ) * (b : ℚ) * ((b : ℚ) + 1) := by
  obtain ⟨k, hk⟩ := Nat.even_mul_succ_self b
  have hval : (1 / 2 : ℚ) * (b : ℚ) * ((b : ℚ) + 1) = (k : ℚ) := by
    have hcast : ((b * (b + 1) : ℕ) : ℚ) = (k : ℚ) + (k : ℚ) := by
      rw [hk]; push_cast; ring
    push_cast at hcast
    linarith
  rw [hval, Int.floor_natCast]
  push_cast
  ring

/-! ### Helper lemma about row-major reshaping -/

theorem reshapeRows_flatten {α : Type} (ny : ℕ) (blocks : List (List α))
    (h : ∀ b ∈ blocks, b.length = ny) :
    reshapeRows ny blocks.length blocks.flatten = blocks := by
  induction blocks with
  | nil => simp [reshapeRows]
  | cons b bs ih =>
    rw [List.length_cons, List.flatten_cons, reshapeRows,
      List.take_left' (h b (by simp)), List.drop_left' (h b (by simp))]
    rw [ih (fun x hx => h x (List.mem_cons_of_mem _ hx))]

/-! ### Helper lemmas about `ncr` -/

theorem prod_range_sub (n k : ℕ) :
    ((List.range k).map (fun i => n - i)).prod = n.descFactorial k := by
  induction k with
  | zero => simp
  | succ k ih =>
    rw [List.range_succ, List.map_append, List.prod_append, ih, Nat.descFactorial_succ]
    simp [Nat.mul_comm]

theorem prod_range_add_one (k : ℕ) :
    ((List.range k).map (fun i => i + 1)).prod = k.factorial := by
  induction k with
  | zero => simp
  | succ k ih =>
    rw [List.range_succ, List.map_append, List.prod_append, ih]
    simp [Nat.factorial_succ, Nat.mul_comm]

/-! ### Helper lemmas about the built state -/

theorem makebasisStep_basisBuilt (s : ClassicalDotSystem) :
    (s.makebasisStep).basisBuilt := by
  refine ⟨rfl, rfl, rfl, rfl, rfl⟩

theorem basisBuilt_Nt_pos {s : ClassicalDotSystem} (hb : s.basisBuilt) : 0 < s.Nt := by
  rw [hb.2.2.1, hb.1, makebasis_length]
  exact pow_pos (Nat.succ_pos _) _

theorem basisBuilt_basis_length {s : ClassicalDotSystem} (hb : s.basisBuilt) :
    s.basis.length = s.Nt := (hb.2.2.1).symm

theorem basisBuilt_mem_basis_length {s : ClassicalDotSystem} (hb : s.basisBuilt)
    {occ : List ℕ} (h : occ ∈ s.basis) : occ.length = s.ndots := by
  rw [hb.1] at h
  exact (mem_makebasis.mp h).1

theorem basisBuilt_getD_basis_length {s : ClassicalDotSystem} (hb : s.basisBuilt)
    {i : ℕ} (hi : i < s.Nt) : (s.basis.getD i []).length = s.ndots := by
  have hlen : i < s.basis.length := by rw [basisBuilt_basis_length hb]; exact hi
  rw [List.getD_eq_getElem _ _ hlen]
  exact basisBuilt_mem_basis_length hb (List.getElem_mem hlen)

theorem basisBuilt_coulomb_getD {s : ClassicalDotSystem} (hb : s.basisBuilt)
    {i : ℕ} (hi : i < s.Nt) :
    s.coulomb_energy.getD i [] = coulomb_row (s.basis.getD i []) := by
  have hlen : i < s.basis.length := by rw [basisBuilt_basis_length hb]; exact hi
  rw [hb.2.2.2.2]
  rw [List.getD_eq_getElem _ _ (by simpa using hlen), List.getD_eq_getElem _ _ hlen,
    List.getElem_map]

theorem basisBuilt_add_getD {s : ClassicalDotSystem} (hb : s.basisBuilt)
    {i : ℕ} (hi : i < s.Nt) :
    s.add_basis.getD i [] = add_basis_row (s.basis.getD i []) := by
  have hlen : i < s.basis.length := by rw [basisBuilt_basis_length hb]; exact hi
  rw [hb.2.2.2.1]
  rw [List.getD_eq_getElem _ _ (by simpa using hlen), List.getD_eq_getElem _ _ hlen,
    List.getElem_map]

/-! ### Per-entry form of `calculate_energies` -/

theorem calculate_energies_length (s : ClassicalDotSystem) (g : List ℚ) :
    (s.calculate_energies g).length = s.Nt := by
  simp [ClassicalDotSystem.calculate_energies]

theorem calculate_energies_getD (s : ClassicalDotSystem) (g : List ℚ)
    {i : ℕ} (hi : i < s.Nt) :
    (s.calculate_energies g).getD i 0 =
      dotp ((List.zipWith (fun m a => m + a) s.mu0 (matvec s.alpha g)).map (fun x => -x))
        ((s.basis.getD i []).map (fun b : ℕ => (b : ℚ))) +
      dotp ((s.coulomb_energy.getD i []).map (fun c : ℕ => (c : ℚ))) s.W +
      dotp ((s.add_basis.getD i []).map (fun a : ℤ => (a : ℚ))) s.Eadd := by
  have hlen : i < (s.calculate_energies g).length := by
    rw [calculate_energies_length]; exact hi
  rw [List.getD_eq_getElem _ _ hlen]
  simp only [ClassicalDotSystem.calculate_energies, List.getElem_map, List.getElem_range]

/-! ### The two sweep strategies coincide -/

theorem sweepPar_eq_sweepSeq (s : ClassicalDotSystem) (grid : List (List (List ℚ)))
    (nx ny : ℕ) : s.sweepPar grid nx ny = s.sweepSeq grid nx ny := by
  rw [ClassicalDotSystem.sweepPar, ClassicalDotSystem.sweepSeq]
  rw [List.map_flatMap]
  have hblocks : ((List.range nx).map (fun i =>
      (List.range ny).map (fun j => s.calculate_ground_state (gridColumn grid i j)))).flatten =
      (List.range nx).flatMap (fun i =>
        List.map (fun g => s.calculate_ground_state g)
          ((List.range ny).map (fun j => gridColumn grid i j))) := by
    rw [← List.flatMap_def]
    apply List.flatMap_congr
    intro i _
    rw [List.map_map]
    rfl
  rw [← hblocks]
  have hlen : ((List.range nx).map (fun i =>
      (List.range ny).map (fun j => s.calculate_ground_state (gridColumn grid i j)))).length
      = nx := by simp
  have := reshapeRows_flatten ny ((List.range nx).map (fun i =>
      (List.range ny).map (fun j => s.calculate_ground_state (gridColumn grid i j))))
    (by intro b hb
        rw [List.mem_map] at hb
        obtain ⟨i, -, rfl⟩ := hb
        simp)
  rw [hlen] at this
  exact this

/-! ### The state-passing method bodies compute the pure functions -/

theorem foldl_accum_state {σ α β : Type} (f : σ → β → α) (l : List β) (acc : List α) (st : σ) :
    (l.foldl (fun p i => (p.1 ++ [f p.2 i], p.2)) (acc, st)) = (acc ++ l.map (f st), st) := by
  induction l generalizing acc with
  | nil => simp
  | cons x xs ih =>
    rw [List.foldl_cons, List.map_cons]
    dsimp only
    rw [ih]
    simp

theorem calculate_energies_run_eq (s : ClassicalDotSystem) (g : List ℚ) :
    s.calculate_energies_run g = (s.calculate_energies g, s) := by
  have h := foldl_accum_state
    (fun (st : ClassicalDotSystem) (i : ℕ) =>
      dotp ((List.zipWith (fun m a => m + a) st.mu0 (matvec st.alpha g)).map (fun x => -x))
        ((st.basis.getD i []).map (fun b : ℕ => (b : ℚ))) +
      dotp ((st.coulomb_energy.getD i []).map (fun c : ℕ => (c : ℚ))) st.W +
      dotp ((st.add_basis.getD i []).map (fun a2 : ℤ => (a2 : ℚ))) st.Eadd)
    (List.range s.Nt) [] s
  simpa [ClassicalDotSystem.calculate_energies_run,
    ClassicalDotSystem.calculate_energies] using h

theorem calculate_ground_state_run_eq (s : ClassicalDotSystem) (g : List ℚ) :
    s.calculate_ground_state_run g = (s.calculate_ground_state g, s) := by
  rw [ClassicalDotSystem.calculate_ground_state_run, calculate_energies_run_eq]
  rfl

/-! ### Membership in the pair enumeration -/

theorem pairs_mem {α : Type} {l : List α} {p : α × α} (h : p ∈ pairs l) :
    p.1 ∈ l ∧ p.2 ∈ l := by
  induction l with
  | nil => simp [pairs] at h
  | cons x xs ih =>
    rw [pairs, List.mem_append, List.mem_map] at h
    rcases h with ⟨y, hy, rfl⟩ | h
    · exact ⟨by simp, List.mem_cons_of_mem _ hy⟩
    · obtain ⟨h1, h2⟩ := ih h
      exact ⟨List.mem_cons_of_mem _ h1, List.mem_cons_of_mem _ h2⟩

/-! ### Facts about the `DoubleDot` preset used by concrete instantiations -/

theorem DoubleDot_ndots : DoubleDot.ndots = 2 := rfl

theorem DoubleDot_ngates : DoubleDot.ngates = 2 := rfl

theorem DoubleDot_maxelectrons : DoubleDot.maxelectrons = 3 := rfl

theorem DoubleDot_basisBuilt : DoubleDot.basisBuilt := makebasisStep_basisBuilt _

theorem DoubleDot_Nt : DoubleDot.Nt = 16 := by
  rw [DoubleDot_basisBuilt.2.2.1, DoubleDot_basisBuilt.1, makebasis_length,
    DoubleDot_ndots, DoubleDot_maxelectrons]
  norm_num

/-! ### Claim theorems -/

/-- C8: for all non-negative integers `n` and `r` with `r ≤ n`, `ncr n r` is the
exact integer binomial coefficient `C(n, r)`, computed in exact integer
arithmetic over the smaller of `r` and `n - r`, and it returns `1` when the
reduced `r` is `0` (in particular when `r = 0`). -/
theorem ncr_eq_choose (n r : ℕ) (h : r ≤ n) : ncr n r = n.choose r := by
  simp only [ncr]
  by_cases h0 : min r (n - r) = 0
  · rw [if_pos h0]
    rcases Nat.min_eq_zero_iff.mp h0 with hr | hnr
    · rw [hr, Nat.choose_zero_right]
    · have hrn : r = n := by omega
      rw [hrn, Nat.choose_self]
  · rw [if_neg h0, prod_range_sub, prod_range_add_one]
    rcases le_total r (n - r) with hle | hle
    · rw [min_eq_left hle, ← Nat.choose_eq_descFactorial_div_factorial]
    · rw [min_eq_right hle, ← Nat.choose_eq_descFactorial_div_factorial,
        Nat.choose_symm h]

/-- Witness for C8 at `n = 7`, `r = 3`. -/
theorem ncr_eq_choose_witness : 3 ≤ 7 ∧ ncr 7 3 = Nat.choose 7 3 :=
  ⟨by decide, ncr_eq_choose 7 3 (by decide)⟩

/-- C2: for every `ndots` and `maxelectrons`, `makebasis` generates exactly
`(maxelectrons + 1) ^ ndots` occupation vectors, each an `ndots`-tuple with
every entry in `[0, maxelectrons]`, sorted by non-decreasing total occupancy
with ties broken by the enumeration order of the combinatorial product (the
basis restricted to each total occupancy equals the product list so
restricted); in particular for `ndots = 2`, `maxelectrons = 3` the basis has
16 entries. -/
theorem makebasis_spec (ndots maxelectrons : ℕ) :
    (makebasis ndots maxelectrons).length = (maxelectrons + 1) ^ ndots ∧
    (∀ occ ∈ makebasis ndots maxelectrons,
      occ.length = ndots ∧ ∀ x ∈ occ, x ≤ maxelectrons) ∧
    (makebasis ndots maxelectrons).Pairwise (fun a b => a.sum ≤ b.sum) ∧
    (∀ s, (makebasis ndots maxelectrons).filter (fun v => v.sum = s) =
      (natProduct maxelectrons ndots).filter (fun v => v.sum = s)) ∧
    (makebasis 2 3).length = 16 := by
  refine ⟨makebasis_length _ _, fun occ h => mem_makebasis.mp h, makebasis_sorted _ _,
    fun s => makebasis_filter_sum _ _ s, ?_⟩
  rw [makebasis_length]
  norm_num

/-- C4: for every built model and basis index `i`, the cached vector
`coulomb_energy[i]` is exactly the list of pairwise products
`occ[a] * occ[b]` taken along the canonical lexicographic enumeration
`pairsIdx ndots` of the index pairs `(a, b)` with `a < b < ndots`; it has
length `C(ndots, 2)`, the enumeration is strictly lexicographically
increasing, and it ranges over exactly the unordered dot pairs. -/
theorem coulomb_terms_spec (s : ClassicalDotSystem) (hb : s.basisBuilt)
    (i : ℕ) (hi : i < s.Nt) :
    s.coulomb_energy.getD i [] =
      (pairsIdx s.ndots).map
        (fun p => (s.basis.getD i []).getD p.1 0 * (s.basis.getD i []).getD p.2 0) ∧
    (s.coulomb_energy.getD i []).length = s.ndots.choose 2 ∧
    (pairsIdx s.ndots).Pairwise lexLt ∧
    (∀ p : ℕ × ℕ, p ∈ pairsIdx s.ndots ↔ p.1 < p.2 ∧ p.2 < s.ndots) := by
  have hrow : s.coulomb_energy.getD i [] = coulomb_row (s.basis.getD i []) :=
    basisBuilt_coulomb_getD hb hi
  have hlen : (s.basis.getD i []).length = s.ndots := basisBuilt_getD_basis_length hb hi
  have hmain : s.coulomb_energy.getD i [] =
      (pairsIdx s.ndots).map
        (fun p => (s.basis.getD i []).getD p.1 0 * (s.basis.getD i []).getD p.2 0) := by
    rw [hrow, coulomb_row, pairs_eq_pairsIdx (s.basis.getD i []) 0, hlen, List.map_map]
    rfl
  refine ⟨hmain, ?_, pairsIdx_pairwise_lex _, fun p => mem_pairsIdx⟩
  rw [hmain, List.length_map, pairsIdx_length]

/-- Witness for C4 on the `DoubleDot` preset at basis index `3`. -/
theorem coulomb_terms_spec_witness :
    DoubleDot.basisBuilt ∧ 3 < DoubleDot.Nt ∧
    (DoubleDot.coulomb_energy.getD 3 [] =
      (pairsIdx DoubleDot.ndots).map
        (fun p =>
          (DoubleDot.basis.getD 3 []).getD p.1 0 * (DoubleDot.basis.getD 3 []).getD p.2 0) ∧
    (DoubleDot.coulomb_energy.getD 3 []).length = DoubleDot.ndots.choose 2 ∧
    (pairsIdx DoubleDot.ndots).Pairwise lexLt ∧
    (∀ p : ℕ × ℕ, p ∈ pairsIdx DoubleDot.ndots ↔ p.1 < p.2 ∧ p.2 < DoubleDot.ndots)) := by
  have hb : DoubleDot.basisBuilt := DoubleDot_basisBuilt
  have hi : 3 < DoubleDot.Nt := by rw [DoubleDot_Nt]; omega
  exact ⟨hb, hi, coulomb_terms_spec DoubleDot hb 3 hi⟩

/-- C7: for every built model, basis index `i` and dot `d`, the cached
addition-energy weight `add_basis[i][d]` equals exactly
`0.5 * n_d * (n_d + 1)` for the occupancy `n_d = basis[i][d]`: its rational
value is `1/2 * n_d * (n_d + 1)` on the nose, and twice the stored integer is
exactly `n_d * (n_d + 1)`, so no rounding occurs. -/
theorem add_basis_spec (s : ClassicalDotSystem) (hb : s.basisBuilt)
    (i d : ℕ) (hi : i < s.Nt) (hd : d < s.ndots) :
    (((s.add_basis.getD i []).getD d 0 : ℤ) : ℚ) =
      (1 / 2 : ℚ) * (((s.basis.getD i []).getD d 0 : ℕ) : ℚ) *
        ((((s.basis.getD i []).getD d 0 : ℕ) : ℚ) + 1) ∧
    2 * ((s.add_basis.getD i []).getD d 0 : ℤ) =
      (((s.basis.getD i []).getD d 0 : ℕ) : ℤ) *
        ((((s.basis.getD i []).getD d 0 : ℕ) : ℤ) + 1) := by
  have hrow : s.add_basis.getD i [] = add_basis_row (s.basis.getD i []) :=
    basisBuilt_add_getD hb hi
  have hlen : (s.basis.getD i []).length = s.ndots := basisBuilt_getD_basis_length hb hi
  have hd2 : d < (s.basis.getD i []).length := by omega
  have hd3 : d < (add_basis_row (s.basis.getD i [])).length := by
    simp only [add_basis_row, List.length_map]; omega
  have hentry : ((s.add_basis.getD i []).getD d 0 : ℤ) =
      ⌊(1 / 2 : ℚ) * (((s.basis.getD i []).getD d 0 : ℕ) : ℚ) *
        ((((s.basis.getD i []).getD d 0 : ℕ) : ℚ) + 1)⌋ := by
    rw [hrow, List.getD_eq_getElem _ _ hd3]
    simp only [add_basis_row, List.getElem_map]
    rw [List.getD_eq_getElem _ _ hd2]
  have hq : (((s.add_basis.getD i []).getD d 0 : ℤ) : ℚ) =
      (1 / 2 : ℚ) * (((s.basis.getD i []).getD d 0 : ℕ) : ℚ) *
        ((((s.basis.getD i []).getD d 0 : ℕ) : ℚ) + 1) := by
    rw [hentry, floor_half_mul_succ]
  refine ⟨hq, ?_⟩
  have h2 : (2 : ℚ) * (((s.add_basis.getD i []).getD d 0 : ℤ) : ℚ) =
      (((s.basis.getD i []).getD d 0 : ℕ) : ℚ) *
        ((((s.basis.getD i []).getD d 0 : ℕ) : ℚ) + 1) := by
    rw [hq]; ring
  exact_mod_cast h2

/-- Witness for C7 on the `DoubleDot` preset at basis index `5`, dot `1`. -/
theorem add_basis_spec_witness :
    DoubleDot.basisBuilt ∧ 5 < DoubleDot.Nt ∧ 1 < DoubleDot.ndots ∧
    ((((DoubleDot.add_basis.getD 5 []).getD 1 0 : ℤ) : ℚ) =
      (1 / 2 : ℚ) * (((DoubleDot.basis.getD 5 []).getD 1 0 : ℕ) : ℚ) *
        ((((DoubleDot.basis.getD 5 []).getD 1 0 : ℕ) : ℚ) + 1) ∧
    2 * ((DoubleDot.add_basis.getD 5 []).getD 1 0 : ℤ) =
      (((DoubleDot.basis.getD 5 []).getD 1 0 : ℕ) : ℤ) *
        ((((DoubleDot.basis.getD 5 []).getD 1 0 : ℕ) : ℤ) + 1)) := by
  have hb : DoubleDot.basisBuilt := DoubleDot_basisBuilt
  have hi : 5 < DoubleDot.Nt := by rw [DoubleDot_Nt]; omega
  have hd : 1 < DoubleDot.ndots := by rw [DoubleDot_ndots]; omega
  exact ⟨hb, hi, hd, add_basis_spec DoubleDot hb 5 1 hi hd⟩

/-- C1: for every model whose basis has been built and every gate-voltage
vector of length `ngates`, `calculate_energies` returns one energy per basis
state: entry `i` equals the dot product of `-(mu0 + alpha · gate_voltages)`
with `basis[i]`, plus the dot product of `coulomb_energy[i]` with `W`, plus
the dot product of `add_basis[i]` with `Eadd`; the evaluation is defined for
every rational-valued input (no special-casing) and has no side effects on
the model state. -/
theorem calculate_energies_contract (s : ClassicalDotSystem) (g : List ℚ)
    (hb : s.basisBuilt) (hg : g.length = s.ngates) :
    (s.calculate_energies g).length = s.Nt ∧
    (∀ i, i < s.Nt →
      (s.calculate_energies g).getD i 0 =
        dotp ((List.zipWith (fun m a => m + a) s.mu0 (matvec s.alpha g)).map (fun x => -x))
          ((s.basis.getD i []).map (fun b : ℕ => (b : ℚ))) +
        dotp ((s.coulomb_energy.getD i []).map (fun c : ℕ => (c : ℚ))) s.W +
        dotp ((s.add_basis.getD i []).map (fun a : ℤ => (a : ℚ))) s.Eadd) ∧
    (s.calculate_energies_run g).2 = s := by
  refine ⟨calculate_energies_length s g, fun i hi => calculate_energies_getD s g hi, ?_⟩
  rw [calculate_energies_run_eq]

/-- Witness for C1 on the `DoubleDot` preset at gate voltages `(0, 0)`. -/
theorem calculate_energies_contract_witness :
    DoubleDot.basisBuilt ∧ ([(0 : ℚ), 0]).length = DoubleDot.ngates ∧
    ((DoubleDot.calculate_energies [0, 0]).length = DoubleDot.Nt ∧
    (∀ i, i < DoubleDot.Nt →
      (DoubleDot.calculate_energies [0, 0]).getD i 0 =
        dotp ((List.zipWith (fun m a => m + a) DoubleDot.mu0
            (matvec DoubleDot.alpha [0, 0])).map (fun x => -x))
          ((DoubleDot.basis.getD i []).map (fun b : ℕ => (b : ℚ))) +
        dotp ((DoubleDot.coulomb_energy.getD i []).map (fun c : ℕ => (c : ℚ)))
          DoubleDot.W +
        dotp ((DoubleDot.add_basis.getD i []).map (fun a : ℤ => (a : ℚ)))
          DoubleDot.Eadd) ∧
    (DoubleDot.calculate_energies_run [0, 0]).2 = DoubleDot) :=
  ⟨DoubleDot_basisBuilt, rfl,
    calculate_energies_contract DoubleDot [0, 0] DoubleDot_basisBuilt rfl⟩

/-- C3: for every built model and every gate-voltage vector,
`calculate_ground_state` returns the basis state at the least index
achieving the minimum of `calculate_energies`: the returned state is
`basis[k]` for an index `k` whose energy is a lower bound of all energies
and which is strictly below every earlier index's energy
(deterministic lowest-index tie-break). -/
theorem calculate_ground_state_contract (s : ClassicalDotSystem) (g : List ℚ)
    (hb : s.basisBuilt) :
    ∃ k, k < s.Nt ∧
      s.calculate_ground_state g = s.basis.getD k [] ∧
      (∀ j, j < s.Nt →
        (s.calculate_energies g).getD k 0 ≤ (s.calculate_energies g).getD j 0) ∧
      (∀ j, j < k →
        (s.calculate_energies g).getD j 0 > (s.calculate_energies g).getD k 0) := by
  have hlen := calculate_energies_length s g
  have hpos := basisBuilt_Nt_pos hb
  have hne : s.calculate_energies g ≠ [] := by
    intro h
    rw [h] at hlen
    simp only [List.length_nil] at hlen
    omega
  refine ⟨argmin (s.calculate_energies g), ?_, rfl, ?_, ?_⟩
  · have := argmin_lt_length hne
    omega
  · intro j hj
    exact argmin_le j (by omega)
  · intro j hj
    exact argmin_first j hj

/-- Witness for C3 on the `DoubleDot` preset at gate voltages `(0, 0)`. -/
theorem calculate_ground_state_contract_witness :
    DoubleDot.basisBuilt ∧
    (∃ k, k < DoubleDot.Nt ∧
      DoubleDot.calculate_ground_state [0, 0] = DoubleDot.basis.getD k [] ∧
      (∀ j, j < DoubleDot.Nt →
        (DoubleDot.calculate_energies [0, 0]).getD k 0 ≤
          (DoubleDot.calculate_energies [0, 0]).getD j 0) ∧
      (∀ j, j < k →
        (DoubleDot.calculate_energies [0, 0]).getD j 0 >
          (DoubleDot.calculate_energies [0, 0]).getD k 0)) :=
  ⟨DoubleDot_basisBuilt,
    calculate_ground_state_contract DoubleDot [0, 0] DoubleDot_basisBuilt⟩

/-- C9: after the basis is built, energy evaluation is read-only: the
state-passing bodies of `calculate_energies` and `calculate_ground_state`
return the model unchanged (so basis, caches and parameter vectors are
untouched), and re-running either of them on the post-state returns the
identical result. -/
theorem energy_evaluation_readonly (s : ClassicalDotSystem) (g : List ℚ)
    (hb : s.basisBuilt) :
    (s.calculate_energies_run g).2 = s ∧
    (s.calculate_ground_state_run g).2 = s ∧
    ((s.calculate_energies_run g).2.calculate_energies_run g).1 =
      (s.calculate_energies_run g).1 ∧
    ((s.calculate_ground_state_run g).2.calculate_ground_state_run g).1 =
      (s.calculate_ground_state_run g).1 := by
  simp [calculate_energies_run_eq, calculate_ground_state_run_eq]

/-- Witness for C9 on the `DoubleDot` preset at gate voltages `(1, 2)`. -/
theorem energy_evaluation_readonly_witness :
    DoubleDot.basisBuilt ∧
    ((DoubleDot.calculate_energies_run [1, 2]).2 = DoubleDot ∧
    (DoubleDot.calculate_ground_state_run [1, 2]).2 = DoubleDot ∧
    ((DoubleDot.calculate_energies_run [1, 2]).2.calculate_energies_run [1, 2]).1 =
      (DoubleDot.calculate_energies_run [1, 2]).1 ∧
    ((DoubleDot.calculate_ground_state_run [1, 2]).2.calculate_ground_state_run [1, 2]).1 =
      (DoubleDot.calculate_ground_state_run [1, 2]).1) :=
  ⟨DoubleDot_basisBuilt,
    energy_evaluation_readonly DoubleDot [1, 2] DoubleDot_basisBuilt⟩

/-- C6: when the leading dimension of the voltage grid differs from
`ngates`, `simulate_honeycomb` reports the configuration error by returning
no result at all, for either execution strategy: no ground-state computation
is reflected in the output and no fragmentary grid is produced. -/
theorem simulate_honeycomb_config_error (s : ClassicalDotSystem)
    (grid : List (List (List ℚ))) (mp : Bool) (h : grid.length ≠ s.ngates) :
    s.simulate_honeycomb grid mp = none := by
  simp only [ClassicalDotSystem.simulate_honeycomb]
  rw [if_pos h]

/-- Witness for C6: a grid with one gate plane passed to the two-gate
`DoubleDot` preset. -/
theorem simulate_honeycomb_config_error_witness :
    ([[[(0 : ℚ)]]] : List (List (List ℚ))).length ≠ DoubleDot.ngates ∧
    DoubleDot.simulate_honeycomb [[[(0 : ℚ)]]] true = none :=
  ⟨by simp [DoubleDot_ngates],
    simulate_honeycomb_config_error DoubleDot [[[(0 : ℚ)]]] true
      (by simp [DoubleDot_ngates])⟩

/-! ### Entry 0 of a built basis is the vacuum state -/

theorem calculate_energies_getD_zero_eq (s : ClassicalDotSystem) (hb : s.basisBuilt)
    (g : List ℚ) : (s.calculate_energies g).getD 0 0 = 0 := by
  have hpos := basisBuilt_Nt_pos hb
  have h0 : s.basis.getD 0 [] = List.replicate s.ndots 0 := by
    rw [hb.1, makebasis_head]
  rw [calculate_energies_getD s g hpos, basisBuilt_coulomb_getD hb hpos,
    basisBuilt_add_getD hb hpos, h0]
  have hterm1 : dotp ((List.zipWith (fun m a => m + a) s.mu0 (matvec s.alpha g)).map
      (fun x => -x)) ((List.replicate s.ndots 0).map (fun b : ℕ => (b : ℚ))) = 0 := by
    rw [List.map_replicate]
    exact dotp_replicate_zero_right _ _
  have hterm2 : dotp ((coulomb_row (List.replicate s.ndots 0)).map
      (fun c : ℕ => (c : ℚ))) s.W = 0 := by
    apply dotp_left_all_zero
    intro x hx
    rw [List.mem_map] at hx
    obtain ⟨y, hy, rfl⟩ := hx
    rw [coulomb_row, List.mem_map] at hy
    obtain ⟨p, hp, rfl⟩ := hy
    have h1 := (pairs_mem hp).1
    have := List.eq_of_mem_replicate h1
    rw [this]
    norm_num
  have hterm3 : dotp ((add_basis_row (List.replicate s.ndots 0)).map
      (fun a : ℤ => (a : ℚ))) s.Eadd = 0 := by
    apply dotp_left_all_zero
    intro x hx
    rw [List.mem_map] at hx
    obtain ⟨y, hy, rfl⟩ := hx
    rw [add_basis_row, List.mem_map] at hy
    obtain ⟨b, hb2, rfl⟩ := hy
    have := List.eq_of_mem_replicate hb2
    rw [this]
    norm_num
  rw [hterm1, hterm2, hterm3]
  norm_num

/-- C10: for every built model, the first basis state (index 0) is the
all-zeros occupation vector; its energy is exactly `0` for every rational
gate-voltage vector; the basis is non-empty, so the ground state is always
defined; and consequently the minimum of the energy vector is at most `0`. -/
theorem vacuum_state_spec (s : ClassicalDotSystem) (hb : s.basisBuilt) (g : List ℚ) :
    s.basis.getD 0 [] = List.replicate s.ndots 0 ∧
    (s.calculate_energies g).getD 0 0 = 0 ∧
    0 < s.Nt ∧
    (s.calculate_energies g).getD (argmin (s.calculate_energies g)) 0 ≤ 0 := by
  have hpos := basisBuilt_Nt_pos hb
  have hE0 := calculate_energies_getD_zero_eq s hb g
  refine ⟨?_, hE0, hpos, ?_⟩
  · rw [hb.1, makebasis_head]
  · have hlen := calculate_energies_length s g
    have h := @argmin_le (s.calculate_energies g) 0 (by omega)
    rw [hE0] at h
    exact h

/-- Witness for C10 on the `DoubleDot` preset at gate voltages `(3, 4)`. -/
theorem vacuum_state_spec_witness :
    DoubleDot.basisBuilt ∧
    (DoubleDot.basis.getD 0 [] = List.replicate DoubleDot.ndots 0 ∧
    (DoubleDot.calculate_energies [3, 4]).getD 0 0 = 0 ∧
    0 < DoubleDot.Nt ∧
    (DoubleDot.calculate_energies [3, 4]).getD
      (argmin (DoubleDot.calculate_energies [3, 4])) 0 ≤ 0) :=
  ⟨DoubleDot_basisBuilt, vacuum_state_spec DoubleDot DoubleDot_basisBuilt [3, 4]⟩

/-! ### The ground state is always a full occupation vector -/

theorem calculate_ground_state_length (s : ClassicalDotSystem) (hb : s.basisBuilt)
    (g : List ℚ) : (s.calculate_ground_state g).length = s.ndots := by
  rw [ClassicalDotSystem.calculate_ground_state]
  apply basisBuilt_getD_basis_length hb
  have hlen := calculate_energies_length s g
  have hpos := basisBuilt_Nt_pos hb
  have hne : s.calculate_energies g ≠ [] := by
    intro h
    rw [h] at hlen
    simp only [List.length_nil] at hlen
    omega
  have := argmin_lt_length hne
  omega

/-- C5: with the gate dimension matching `ngates`, the parallel and
sequential execution strategies of `simulate_honeycomb` produce bit-identical
occupation grids, assembled row-major (x outer, y inner) to match the input
grid's indexing: the grid has `npointsx` rows of `npointsy` cells, cell
`(i, j)` is the ground state at the gate vector `paramvalues2D[:, i, j]`,
and every cell is an `ndots`-vector. -/
theorem simulate_honeycomb_strategies (s : ClassicalDotSystem)
    (grid : List (List (List ℚ))) (nx ny : ℕ) (hb : s.basisBuilt)
    (hg : grid.length = s.ngates)
    (hnx : nx = (grid.getD 0 []).length)
    (hny : ny = ((grid.getD 0 []).getD 0 []).length) :
    s.simulate_honeycomb grid true = s.simulate_honeycomb grid false ∧
    s.simulate_honeycomb grid true = some (s.sweepSeq grid nx ny) ∧
    (s.sweepSeq grid nx ny).length = nx ∧
    (∀ row ∈ s.sweepSeq grid nx ny, row.length = ny) ∧
    (∀ i j, i < nx → j < ny →
      ((s.sweepSeq grid nx ny).getD i []).getD j [] =
        s.calculate_ground_state (gridColumn grid i j)) ∧
    (∀ i j, i < nx → j < ny →
      (((s.sweepSeq grid nx ny).getD i []).getD j []).length = s.ndots) := by
  subst hnx hny
  have hcell : ∀ i j, i < (grid.getD 0 []).length →
      j < ((grid.getD 0 []).getD 0 []).length →
      ((s.sweepSeq grid (grid.getD 0 []).length
          ((grid.getD 0 []).getD 0 []).length).getD i []).getD j [] =
        s.calculate_ground_state (gridColumn grid i j) := by
    intro i j hi hj
    rw [ClassicalDotSystem.sweepSeq]
    have hi2 : i < ((List.range (grid.getD 0 []).length).map (fun i =>
        (List.range ((grid.getD 0 []).getD 0 []).length).map
          (fun j => s.calculate_ground_state (gridColumn grid i j)))).length := by
      simpa using hi
    rw [List.getD_eq_getElem _ _ hi2, List.getElem_map, List.getElem_range]
    have hj2 : j < ((List.range ((grid.getD 0 []).getD 0 []).length).map
        (fun j => s.calculate_ground_state (gridColumn grid i j))).length := by
      simpa using hj
    rw [List.getD_eq_getElem _ _ hj2, List.getElem_map, List.getElem_range]
  have hsome : s.simulate_honeycomb grid true =
      some (s.sweepSeq grid (grid.getD 0 []).length
        ((grid.getD 0 []).getD 0 []).length) := by
    simp only [ClassicalDotSystem.simulate_honeycomb]
    rw [if_neg (by omega), if_true, sweepPar_eq_sweepSeq]
  refine ⟨?_, hsome, by simp [ClassicalDotSystem.sweepSeq], ?_, hcell, ?_⟩
  · rw [hsome]
    simp only [ClassicalDotSystem.simulate_honeycomb]
    rw [if_neg (by omega), if_neg Bool.false_ne_true]
  · intro row hrow
    rw [ClassicalDotSystem.sweepSeq, List.mem_map] at hrow
    obtain ⟨i, -, rfl⟩ := hrow
    simp
  · intro i j hi hj
    rw [hcell i j hi hj]
    exact calculate_ground_state_length s hb _

/-- Witness for C5 on the `DoubleDot` preset with a `2 × 1 × 1` grid. -/
theorem simulate_honeycomb_strategies_witness :
    DoubleDot.basisBuilt ∧
    ([[[(0 : ℚ)]], [[0]]] : List (List (List ℚ))).length = DoubleDot.ngates ∧
    (DoubleDot.simulate_honeycomb [[[(0 : ℚ)]], [[0]]] true =
      DoubleDot.simulate_honeycomb [[[(0 : ℚ)]], [[0]]] false ∧
    DoubleDot.simulate_honeycomb [[[(0 : ℚ)]], [[0]]] true =
      some (DoubleDot.sweepSeq [[[(0 : ℚ)]], [[0]]] 1 1) ∧
    (DoubleDot.sweepSeq [[[(0 : ℚ)]], [[0]]] 1 1).length = 1 ∧
    (∀ row ∈ DoubleDot.sweepSeq [[[(0 : ℚ)]], [[0]]] 1 1, row.length = 1) ∧
    (∀ i j, i < 1 → j < 1 →
      ((DoubleDot.sweepSeq [[[(0 : ℚ)]], [[0]]] 1 1).getD i []).getD j [] =
        DoubleDot.calculate_ground_state (gridColumn [[[(0 : ℚ)]], [[0]]] i j)) ∧
    (∀ i j, i < 1 → j < 1 →
      (((DoubleDot.sweepSeq [[[(0 : ℚ)]], [[0]]] 1 1).getD i []).getD j []).length =
        DoubleDot.ndots)) :=
  ⟨DoubleDot_basisBuilt, by simp [DoubleDot_ngates],
    simulate_honeycomb_strategies DoubleDot [[[(0 : ℚ)]], [[0]]] 1 1
      DoubleDot_basisBuilt (by simp [DoubleDot_ngates]) (by simp) (by simp)⟩

end Qtt
